import Mathlib

/-!
Shallow embedding of the filename-derivation core of
`naming_ekho_unlock+deletehunweekly.py`, together with proofs checking the
natural-language specification against it.

The Python code works on Unicode strings via `unicodedata.normalize('NFKD', _)`
plus a combining-mark filter, `str.lower`, `str.upper`, `str.strip`,
`str.split`, the `re` module, and `datetime`.  Here strings are `List Char`
(wrapped in `String` at the API), and the Unicode operations are modelled on
the character repertoire the program actually processes (ASCII plus the nine
accented vowels of the Hungarian alphabet in both cases, plus the combining
marks their NFKD decompositions produce); characters outside the tables are
left unchanged, exactly as NFKD leaves undecomposable characters unchanged.
-/

namespace EkhoNaming

/-- U+0301 COMBINING ACUTE ACCENT. -/
def cAcute : Char := Char.ofNat 769

/-- U+0308 COMBINING DIAERESIS. -/
def cDiaeresis : Char := Char.ofNat 776

/-- U+030B COMBINING DOUBLE ACUTE ACCENT. -/
def cDoubleAcute : Char := Char.ofNat 779

/-- `unicodedata.combining(c) != 0` for the combining marks occurring in the
NFKD decompositions of the modelled repertoire. -/
def isCombining (c : Char) : Bool :=
  c == cAcute || c == cDiaeresis || c == cDoubleAcute

/-- NFKD decompositions of the accented letters of the Hungarian alphabet
(lowercase and uppercase): base letter followed by a combining mark. -/
def nfkdTable : List (Char × List Char) :=
  [ ('á', ['a', cAcute]), ('é', ['e', cAcute]), ('í', ['i', cAcute]),
    ('ó', ['o', cAcute]), ('ú', ['u', cAcute]),
    ('ö', ['o', cDiaeresis]), ('ü', ['u', cDiaeresis]),
    ('ő', ['o', cDoubleAcute]), ('ű', ['u', cDoubleAcute]),
    ('Á', ['A', cAcute]), ('É', ['E', cAcute]), ('Í', ['I', cAcute]),
    ('Ó', ['O', cAcute]), ('Ú', ['U', cAcute]),
    ('Ö', ['O', cDiaeresis]), ('Ü', ['U', cDiaeresis]),
    ('Ő', ['O', cDoubleAcute]), ('Ű', ['U', cDoubleAcute]) ]

/-- Association-list lookup used by the character tables. -/
def lookupDecomp : List (Char × List Char) → Char → Option (List Char)
  | [], _ => none
  | (k, v) :: t, c => if c = k then some v else lookupDecomp t c

/-- Per-character NFKD decomposition: table entry, or the character itself. -/
def nfkdChar (c : Char) : List Char :=
  (lookupDecomp nfkdTable c).getD [c]

/-- `remove_accents` (source lines 13-15): NFKD-decompose, then drop the
combining characters.  (Canonical reordering inside NFKD only permutes
combining marks, all of which are dropped, so the per-character model agrees
with normalizing the whole string.) -/
def removeAccentsL : List Char → List Char
  | [] => []
  | c :: cs => (nfkdChar c).filter (fun d => !isCombining d) ++ removeAccentsL cs

/-- Case-mapping pairs for `str.lower`: ASCII letters plus the accented
Hungarian vowels. -/
def lowerTable : List (Char × Char) :=
  [ ('A', 'a'), ('B', 'b'), ('C', 'c'), ('D', 'd'), ('E', 'e'), ('F', 'f'),
    ('G', 'g'), ('H', 'h'), ('I', 'i'), ('J', 'j'), ('K', 'k'), ('L', 'l'),
    ('M', 'm'), ('N', 'n'), ('O', 'o'), ('P', 'p'), ('Q', 'q'), ('R', 'r'),
    ('S', 's'), ('T', 't'), ('U', 'u'), ('V', 'v'), ('W', 'w'), ('X', 'x'),
    ('Y', 'y'), ('Z', 'z'),
    ('Á', 'á'), ('É', 'é'), ('Í', 'í'), ('Ó', 'ó'), ('Ö', 'ö'),
    ('Ő', 'ő'), ('Ú', 'ú'), ('Ü', 'ü'), ('Ű', 'ű') ]

/-- Case-mapping pairs for `str.upper`. -/
def upperTable : List (Char × Char) :=
  [ ('a', 'A'), ('b', 'B'), ('c', 'C'), ('d', 'D'), ('e', 'E'), ('f', 'F'),
    ('g', 'G'), ('h', 'H'), ('i', 'I'), ('j', 'J'), ('k', 'K'), ('l', 'L'),
    ('m', 'M'), ('n', 'N'), ('o', 'O'), ('p', 'P'), ('q', 'Q'), ('r', 'R'),
    ('s', 'S'), ('t', 'T'), ('u', 'U'), ('v', 'V'), ('w', 'W'), ('x', 'X'),
    ('y', 'Y'), ('z', 'Z'),
    ('á', 'Á'), ('é', 'É'), ('í', 'Í'), ('ó', 'Ó'), ('ö', 'Ö'),
    ('ő', 'Ő'), ('ú', 'Ú'), ('ü', 'Ü'), ('ű', 'Ű') ]

/-- Association-list lookup used by the case tables. -/
def lookupCase : List (Char × Char) → Char → Option Char
  | [], _ => none
  | (k, v) :: t, c => if c = k then some v else lookupCase t c

/-- `str.lower` on one character. -/
def lowerChar (c : Char) : Char := (lookupCase lowerTable c).getD c

/-- `str.upper` on one character. -/
def upperChar (c : Char) : Char := (lookupCase upperTable c).getD c

/-- `str.lower`. -/
def lowerL (l : List Char) : List Char := l.map lowerChar

/-- `str.upper`. -/
def upperL (l : List Char) : List Char := l.map upperChar

/-- The whitespace characters of `str.strip` / `str.split` / regex `\s`. -/
def isPySpace (c : Char) : Bool :=
  c == ' ' || c == '\t' || c == '\n' || c == '\r' || c == '\x0b' || c == '\x0c'

/-- `str.strip()`: remove leading and trailing whitespace. -/
def pyStripL (l : List Char) : List Char :=
  ((l.dropWhile isPySpace).reverse.dropWhile isPySpace).reverse

/-- `str.split()` with no argument: split on whitespace runs, no empty parts. -/
def pySplitL (l : List Char) : List (List Char) :=
  (l.splitOnP isPySpace).filter (fun t => !t.isEmpty)

/-- `" ".join(parts)`. -/
def joinSpace (ts : List (List Char)) : List Char := List.intercalate [' '] ts

/-- The prefix of `l` before the first occurrence of the substring `pat`, or
`none` when `pat` does not occur (models `pat in s` and `s.split(pat)[0]`). -/
def takeBeforeSub (pat : List Char) : List Char → Option (List Char)
  | [] => if pat.isPrefixOf ([] : List Char) then some [] else none
  | c :: cs =>
      if pat.isPrefixOf (c :: cs) then some []
      else (takeBeforeSub pat cs).map (fun r => c :: r)

/-- Source lines 40-41: if `"Company"` occurs, keep only the (stripped) text
before it. -/
def truncCompanyL (l : List Char) : List Char :=
  match takeBeforeSub ("Company".data) l with
  | some pre => pyStripL pre
  | none => l

/-- `remove_accents(x).upper()`, the canonicalization applied on both return
paths of `parse_name`. -/
def canonL (l : List Char) : List Char := upperL (removeAccentsL l)

/-- `remove_accents(n).lower()`, the normalization `is_first_name` applies to
every stored dictionary entry. -/
def normEntryL (l : List Char) : List Char := lowerL (removeAccentsL l)

/-- `is_first_name` (source lines 31-34): normalize the probe with
`remove_accents(name).strip().lower()`, normalize every stored name with
`remove_accents(n).lower()`, and test membership. -/
def isFirstNameL (name : List Char) (db : List (List Char)) : Bool :=
  (db.map normEntryL).contains (lowerL (pyStripL (removeAccentsL name)))

/-- `parse_name` (source lines 37-53). -/
def parseNameL (raw : List Char) (db : List (List Char)) : List Char :=
  let r1 := truncCompanyL (pyStripL raw)
  match pySplitL r1 with
  | p0 :: p1 :: rest =>
      if isFirstNameL p0 db then canonL (joinSpace (p1 :: p0 :: rest))
      else canonL r1
  | _ => canonL r1

/-- `get_short_name_code` (source lines 56-64); `none` models the `IndexError`
raised by `full_name.split()[0]` on a tokenless name. -/
def getShortNameCodeL (l : List Char) : Option (List Char) :=
  match pySplitL l with
  | [] => none
  | t :: _ =>
      if 4 ≤ t.length then some (upperL (t.take 4))
      else if t.length = 3 then some (upperL (t.take 3))
      else some (upperL t)

/-- A `datetime.datetime` value as constructed by `parse_dates` (time fields
are all zero and are omitted). -/
structure Date where
  year : Nat
  month : Nat
  day : Nat
deriving DecidableEq, Repr

/-- Proleptic-Gregorian leap-year rule used by `datetime`. -/
def isLeap (y : Nat) : Bool := y % 4 == 0 && (y % 100 != 0 || y % 400 == 0)

/-- Days in a month, per the Gregorian calendar. -/
def daysInMonth (y m : Nat) : Nat :=
  if m = 2 then (if isLeap y then 29 else 28)
  else if m = 4 ∨ m = 6 ∨ m = 9 ∨ m = 11 then 30
  else 31

/-- `datetime(year, month, day)`: `some` on a valid construction, `none` for
the `ValueError` raised on an invalid one (datetime accepts years 1-9999). -/
def mkDatetime (y m d : Nat) : Option Date :=
  if 1 ≤ y ∧ y ≤ 9999 ∧ 1 ≤ m ∧ m ≤ 12 ∧ 1 ≤ d ∧ d ≤ daysInMonth y m then
    some ⟨y, m, d⟩
  else none

/-- Validity invariant of every date `mkDatetime` produces. -/
def validDate (d : Date) : Prop :=
  1 ≤ d.year ∧ d.year ≤ 9999 ∧ 1 ≤ d.month ∧ d.month ≤ 12 ∧
    1 ≤ d.day ∧ d.day ≤ daysInMonth d.year d.month

instance (d : Date) : Decidable (validDate d) := by
  unfold validDate; infer_instance

/-- `dt - timedelta(days=1)` on a date: the previous calendar day, or `none`
for the `OverflowError` raised when the result would precede `datetime.min`,
i.e. at 0001-01-01 (`datetime.MINYEAR` is 1). -/
def predDate (d : Date) : Option Date :=
  if 1 < d.day then some ⟨d.year, d.month, d.day - 1⟩
  else if 1 < d.month then
    some ⟨d.year, d.month - 1, daysInMonth d.year (d.month - 1)⟩
  else if 1 < d.year then some ⟨d.year - 1, 12, 31⟩
  else none

/-- `datetime` comparison: lexicographic on (year, month, day). -/
def dateLe (a b : Date) : Bool :=
  if a.year = b.year then
    (if a.month = b.month then decide (a.day ≤ b.day)
     else decide (a.month < b.month))
  else decide (a.year < b.year)

/-- Insertion step of `list.sort()` on dates. -/
def insertDate (d : Date) : List Date → List Date
  | [] => [d]
  | e :: es => if dateLe d e then d :: e :: es else e :: insertDate d es

/-- `dates.sort()`: ascending chronological order (ties are identical values,
so insertion sort returns the same list as Python's stable sort). -/
def sortDates : List Date → List Date
  | [] => []
  | d :: ds => insertDate d (sortDates ds)

/-- A date list in ascending chronological order (each adjacent pair in
`dateLe` order). -/
def ascDates : List Date → Bool
  | [] => true
  | [_] => true
  | a :: b :: t => dateLe a b && ascDates (b :: t)

/-- `int(s)` on the digit captures of the date regex. -/
def toNatD (l : List Char) : Nat :=
  l.foldl (fun a c => 10 * a + (c.toNat - 48)) 0

/-- One capture tuple of the date regex
`(\d{4})[. / -](\d{1,2})[. / -](\d{1,2})|(\d{1,2})[. / -](\d{1,2})[. / -](\d{2,4})`:
`A` is the first alternative (`m[0]` nonempty), `B` the second. -/
inductive DateMatch where
  | A (y m d : List Char)
  | B (d1 d2 y : List Char)
deriving DecidableEq, Repr

/-- The separator class `[. / -]`. -/
def isSepC (c : Char) : Bool := c == '.' || c == '/' || c == '-'

/-- `\d{1,2}[. / -]`: greedily two digits then a separator, else one digit then
a separator (the only backtracking the fixed pattern allows here). -/
def grabD12Sep : List Char → Option (List Char × List Char)
  | a :: b :: c :: r =>
      if a.isDigit then
        if b.isDigit then
          if isSepC c then some ([a, b], r) else none
        else if isSepC b then some ([a], c :: r) else none
      else none
  | [a, b] => if a.isDigit && isSepC b then some ([a], []) else none
  | _ => none

/-- Trailing `\d{1,2}` (nothing follows it in the pattern): greedy. -/
def grabD12 : List Char → Option (List Char × List Char)
  | a :: b :: r =>
      if a.isDigit then
        if b.isDigit then some ([a, b], r) else some ([a], b :: r)
      else none
  | [a] => if a.isDigit then some ([a], []) else none
  | [] => none

/-- Trailing `\d{2,4}`: greedily up to four leading digits, at least two. -/
def grabY24 (l : List Char) : Option (List Char × List Char) :=
  let ds := (l.takeWhile Char.isDigit).take 4
  if 2 ≤ ds.length then some (ds, l.drop ds.length) else none

/-- Exactly `\d{4}` (a fifth digit makes the following separator test fail,
as in the regex). -/
def grab4 : List Char → Option (List Char × List Char)
  | a :: b :: c :: d :: r =>
      if a.isDigit && b.isDigit && c.isDigit && d.isDigit then
        some ([a, b, c, d], r)
      else none
  | _ => none

/-- First alternative `(\d{4})[. / -](\d{1,2})[. / -](\d{1,2})` at the current
position. -/
def matchA (l : List Char) : Option (DateMatch × List Char) := do
  let (y, r1) ← grab4 l
  let r2 ← match r1 with
    | s :: r => if isSepC s then some r else none
    | [] => none
  let (m, r3) ← grabD12Sep r2
  let (d, r4) ← grabD12 r3
  pure (DateMatch.A y m d, r4)

/-- Second alternative `(\d{1,2})[. / -](\d{1,2})[. / -](\d{2,4})`. -/
def matchB (l : List Char) : Option (DateMatch × List Char) := do
  let (d1, r1) ← grabD12Sep l
  let (d2, r2) ← grabD12Sep r1
  let (y, r3) ← grabY24 r2
  pure (DateMatch.B d1 d2 y, r3)

/-- `re.findall` scan: at each position try alternative `A` then `B`; on a
match continue after it, otherwise advance one character.  Fuel is the input
length; every match consumes at least one character, so it never runs out. -/
def scanDates : Nat → List Char → List DateMatch
  | 0, _ => []
  | _ + 1, [] => []
  | f + 1, c :: cs =>
      match (matchA (c :: cs)).orElse (fun _ => matchB (c :: cs)) with
      | some (m, rest) => m :: scanDates f rest
      | none => scanDates f cs

/-- `re.findall(date_pattern, text)` (source lines 68-69). -/
def findallDates (l : List Char) : List DateMatch := scanDates l.length l

/-- The per-match body of `parse_dates` (source lines 71-92). -/
def processMatch : DateMatch → Option Date
  | .A y m d => mkDatetime (toNatD y) (toNatD m) (toNatD d)
  | .B d1 d2 y =>
      let y2 := if y.length = 2 then '2' :: '0' :: y else y
      match mkDatetime (toNatD y2) (toNatD d1) (toNatD d2) with
      | some dt => some dt
      | none => mkDatetime (toNatD y2) (toNatD d2) (toNatD d1)

/-- `parse_dates` (source lines 67-94): collect the successfully constructed
dates of all matches, then sort ascending. -/
def parseDatesL (l : List Char) : List Date :=
  sortDates ((findallDates l).filterMap processMatch)

/-- `'%02d'`-style zero-padding used by `strftime('%m%d')`. -/
def pad2L (n : Nat) : List Char :=
  if n < 10 then '0' :: (Nat.repr n).data else (Nat.repr n).data

/-- `dt.strftime('%m%d')`. -/
def fmtMMDD (d : Date) : List Char := pad2L d.month ++ pad2L d.day

/-- The composition step of `generate_filename` (source lines 116-122) given
the parsed name and date list; `none` models the exceptions raised when the
date list is empty, when the day-before subtraction of line 118 overflows at
`datetime.min`, or when the name has no tokens (line 118 runs before the
short-code lookup of line 119, so the overflow fires first; both are `none`
here). -/
def composeFL (name : List Char) (dates : List Date) : Option (List Char) :=
  match dates with
  | [] => none
  | d :: ds =>
      let lastD := ds.getLastD d
      match predDate lastD with
      | none => none
      | some pd =>
          match getShortNameCodeL name with
          | none => none
          | some code =>
              some (name ++ " EKHO - ".data ++ code ++ ['_'] ++ fmtMMDD d
                ++ ['-'] ++ fmtMMDD lastD ++ " - WE25".data
                ++ fmtMMDD pd ++ ".pdf".data)

/-- Case-insensitive literal match: strip `pat` (given lowercase) from the
head of `l`, comparing lowercased characters, as `re.IGNORECASE` does. -/
def stripCi : List Char → List Char → Option (List Char)
  | [], l => some l
  | _ :: _, [] => none
  | p :: ps, c :: cs => if lowerChar c = p then stripCi ps cs else none

/-- Regex `\s+`: at least one whitespace character, greedy. -/
def wsPlus : List Char → Option (List Char)
  | c :: cs => if isPySpace c then some (cs.dropWhile isPySpace) else none
  | [] => none

/-- Regex `\d+`: at least one digit, greedy. -/
def digitsPlus : List Char → Option (List Char)
  | c :: cs => if c.isDigit then some (cs.dropWhile Char.isDigit) else none
  | [] => none

/-- One attempt of `^Period\s+\d+\s+Starts.*(?:\n.*)*?` at a line start
(source lines 98-99).  The classes `\s`, `\d` and the literals are pairwise
disjoint where they meet, so the greedy runs are deterministic; the final lazy
group `(?:\n.*)*?` matches zero repetitions because nothing follows it, so the
match ends at the end of the current line.  Returns the text after the match. -/
def matchPeriod (l : List Char) : Option (List Char) :=
  match stripCi ("period".data) l with
  | none => none
  | some l0 =>
      match wsPlus l0 with
      | none => none
      | some l1 =>
          match digitsPlus l1 with
          | none => none
          | some l2 =>
              match wsPlus l2 with
              | none => none
              | some l3 =>
                  match stripCi ("starts".data) l3 with
                  | none => none
                  | some l4 => some (l4.dropWhile (fun c => c ≠ '\n'))

/-- `re.sub` scan for the pattern above with `re.MULTILINE`: try the (anchored)
pattern at the string start and after every newline, delete each match, and
continue after it.  Fuel is the input length; a match consumes at least the
six characters of `Period`, so it never runs out. -/
def stripAux : Nat → Bool → List Char → List Char
  | 0, _, l => l
  | _ + 1, _, [] => []
  | f + 1, atStart, c :: cs =>
      if atStart then
        match matchPeriod (c :: cs) with
        | some rest => stripAux f false rest
        | none => c :: stripAux f (c == '\n') cs
      else c :: stripAux f (c == '\n') cs

/-- The `re.sub(r"^Period\s+\d+\s+Starts.*(?:\n.*)*?", "", full_text, ...)`
step of `generate_filename` (source lines 98-99). -/
def stripPeriodL (l : List Char) : List Char := stripAux l.length true l

/-- The group of `Name:\s*(.+)` after the label: skip whitespace greedily,
then take the rest of the line; when only whitespace remains, backtrack inside
the whitespace run so that `.+` can still take one non-newline character. -/
def nameGroup (rest : List Char) : Option (List Char) :=
  let w := rest.takeWhile isPySpace
  match rest.drop w.length with
  | a :: r => some ((a :: r).takeWhile (fun c => c ≠ '\n'))
  | [] =>
      match w.reverse.dropWhile (fun c => c = '\n') with
      | c :: _ => some [c]
      | [] => none

/-- `re.search(r"Name:\s*(.+)", full_text, re.IGNORECASE)` (source line 101):
the group of the leftmost position where the whole pattern matches. -/
def findNameL : List Char → Option (List Char)
  | [] => none
  | c :: cs =>
      match stripCi ("name:".data) (c :: cs) with
      | some rest =>
          match nameGroup rest with
          | some g => some g
          | none => findNameL cs
      | none => findNameL cs

/-- Index of the first occurrence of the substring `pat`
(models `str.find`). -/
def indexOfSub (pat : List Char) : List Char → Option Nat
  | [] => if pat.isPrefixOf ([] : List Char) then some 0 else none
  | c :: cs =>
      if pat.isPrefixOf (c :: cs) then some 0
      else (indexOfSub pat cs).map (· + 1)

/-- `generate_filename` (source lines 97-122); `none` models every raised
exception (name label missing, date header missing, no valid dates, empty
name). -/
def generateFilenameL (text : List Char) (db : List (List Char)) :
    Option (List Char) :=
  let t := stripPeriodL text
  match findNameL t with
  | none => none
  | some g =>
      let fullName := parseNameL (pyStripL g) db
      match indexOfSub ("date".data) (lowerL t) with
      | none => none
      | some i =>
          match parseDatesL (t.drop i) with
          | [] => none
          | d :: ds => composeFL fullName (d :: ds)

/-- `remove_accents` at the `String` API. -/
def remove_accents (s : String) : String := String.mk (removeAccentsL s.data)

/-- `is_first_name` at the `String` API (the dictionary set is modelled as a
list; membership is the same). -/
def is_first_name (name : String) (db : List String) : Bool :=
  isFirstNameL name.data (db.map String.data)

/-- `parse_name` at the `String` API. -/
def parse_name (raw : String) (db : List String) : String :=
  String.mk (parseNameL raw.data (db.map String.data))

/-- `get_short_name_code` at the `String` API. -/
def get_short_name_code (s : String) : Option String :=
  (getShortNameCodeL s.data).map String.mk

/-- `parse_dates` at the `String` API. -/
def parse_dates (s : String) : List Date := parseDatesL s.data

/-- The composition step of `generate_filename` at the `String` API
(the `compose(canonicalName, dateSet)` of the specification). -/
def compose (name : String) (dates : List Date) : Option String :=
  (composeFL name.data dates).map String.mk

/-- The preamble-stripping `re.sub` at the `String` API. -/
def stripPeriod (s : String) : String := String.mk (stripPeriodL s.data)

/-- `generate_filename` at the `String` API. -/
def generate_filename (text : String) (db : List String) : Option String :=
  (generateFilenameL text.data (db.map String.data)).map String.mk

/-- `str.upper` at the `String` API. -/
def upperStr (s : String) : String := String.mk (upperL s.data)

/-- A character that NFKD leaves alone and that is not a combining mark; the
output alphabet of `remove_accents` consists of such characters. -/
def plainChar (c : Char) : Bool :=
  (lookupDecomp nfkdTable c).isNone && !isCombining c

/-- Modelled from the spec: the Pattern B handling rule as the specification
words it — a 2-digit year-text `YY` is interpreted as `2000 + YY`; the date is
first constructed as (year, field1-as-month, field2-as-day); on an invalid
calendar date it is retried as (year, field2-as-month, field1-as-day); when
both constructions fail the match contributes nothing. -/
def specHandleB (d1 d2 y : List Char) : Option Date :=
  let year := if y.length = 2 then 2000 + toNatD y else toNatD y
  match mkDatetime year (toNatD d1) (toNatD d2) with
  | some dt => some dt
  | none => mkDatetime year (toNatD d2) (toNatD d1)

/-- Modelled from the spec: a date fragment written as the 2-digit month
followed by the 2-digit day. -/
def specFmt (d : Date) : List Char :=
  [ Nat.digitChar (d.month / 10), Nat.digitChar (d.month % 10),
    Nat.digitChar (d.day / 10), Nat.digitChar (d.day % 10) ]

/-! ## Lemmas about the accent normalizer and the case maps -/

theorem lookupDecomp_eq_some {T : List (Char × List Char)} {c : Char}
    {v : List Char} (h : lookupDecomp T c = some v) : (c, v) ∈ T := by
  induction T with
  | nil => simp [lookupDecomp] at h
  | cons p t ih =>
      obtain ⟨k, w⟩ := p
      by_cases hc : c = k
      · subst hc
        simp [lookupDecomp] at h
        simp [h]
      · simp [lookupDecomp, hc] at h
        exact List.mem_cons_of_mem _ (ih h)

theorem lookupDecomp_eq_none {T : List (Char × List Char)} {c : Char}
    (h : ∀ p ∈ T, c ≠ p.1) : lookupDecomp T c = none := by
  induction T with
  | nil => rfl
  | cons p t ih =>
      obtain ⟨k, w⟩ := p
      have hk : c ≠ k := h (k, w) (List.mem_cons_self _ _)
      simp only [lookupDecomp, if_neg hk]
      exact ih fun q hq => h q (List.mem_cons_of_mem _ hq)

theorem lookupCase_eq_some {T : List (Char × Char)} {c v : Char}
    (h : lookupCase T c = some v) : (c, v) ∈ T := by
  induction T with
  | nil => simp [lookupCase] at h
  | cons p t ih =>
      obtain ⟨k, w⟩ := p
      by_cases hc : c = k
      · subst hc
        simp [lookupCase] at h
        simp [h]
      · simp [lookupCase, hc] at h
        exact List.mem_cons_of_mem _ (ih h)

theorem lookupCase_eq_none {T : List (Char × Char)} {c : Char}
    (h : ∀ p ∈ T, c ≠ p.1) : lookupCase T c = none := by
  induction T with
  | nil => rfl
  | cons p t ih =>
      obtain ⟨k, w⟩ := p
      have hk : c ≠ k := h (k, w) (List.mem_cons_self _ _)
      simp only [lookupCase, if_neg hk]
      exact ih fun q hq => h q (List.mem_cons_of_mem _ hq)

theorem nfkdChar_of_plain {c : Char} (h : plainChar c = true) :
    nfkdChar c = [c] := by
  unfold plainChar at h
  rcases hl : lookupDecomp nfkdTable c with _ | v
  · simp [nfkdChar, hl]
  · simp [hl] at h

theorem not_combining_of_plain {c : Char} (h : plainChar c = true) :
    isCombining c = false := by
  unfold plainChar at h
  rcases hc : isCombining c with _ | _
  · rfl
  · simp [hc] at h

theorem decomp_outputs_ok :
    ∀ p ∈ nfkdTable, ∀ d ∈ p.2, isCombining d = true ∨ plainChar d = true := by
  decide

/-- Every non-combining character of a decomposition is itself plain. -/
theorem plain_of_mem_nfkdChar {c d : Char} (hd : d ∈ nfkdChar c)
    (hc : isCombining d = false) : plainChar d = true := by
  rcases hl : lookupDecomp nfkdTable c with _ | v
  · simp [nfkdChar, hl] at hd
    subst hd
    simp [plainChar, hl, hc]
  · have hm := lookupDecomp_eq_some hl
    simp [nfkdChar, hl] at hd
    rcases decomp_outputs_ok (c, v) hm d hd with h | h
    · rw [h] at hc; cases hc
    · exact h

/-- Every character of the output of `remove_accents` is plain. -/
theorem plain_of_mem_removeAccentsL {l : List Char} {d : Char}
    (h : d ∈ removeAccentsL l) : plainChar d = true := by
  induction l with
  | nil => simp [removeAccentsL] at h
  | cons c cs ih =>
      simp only [removeAccentsL, List.mem_append] at h
      rcases h with h | h
      · have hmem := List.mem_filter.mp h
        have hnc : isCombining d = false := by
          have := hmem.2
          simpa using this
        exact plain_of_mem_nfkdChar hmem.1 hnc
      · exact ih h

/-- `remove_accents` fixes any string of plain characters. -/
theorem removeAccentsL_of_plain {l : List Char}
    (h : ∀ d ∈ l, plainChar d = true) : removeAccentsL l = l := by
  induction l with
  | nil => rfl
  | cons c cs ih =>
      have hc := h c (List.mem_cons_self _ _)
      have ht := ih fun d hd => h d (List.mem_cons_of_mem _ hd)
      simp [removeAccentsL, nfkdChar_of_plain hc, not_combining_of_plain hc, ht]

theorem removeAccentsL_idem (l : List Char) :
    removeAccentsL (removeAccentsL l) = removeAccentsL l :=
  removeAccentsL_of_plain fun _ hd => plain_of_mem_removeAccentsL hd

theorem lowerTable_plain :
    ∀ p ∈ lowerTable, plainChar p.1 = true → plainChar p.2 = true := by
  decide

theorem upperTable_plain :
    ∀ p ∈ upperTable, plainChar p.1 = true → plainChar p.2 = true := by
  decide

theorem lowerTable_values_not_keys :
    ∀ p ∈ lowerTable, ∀ q ∈ lowerTable, p.2 ≠ q.1 := by
  decide

theorem upperTable_values_not_keys :
    ∀ p ∈ upperTable, ∀ q ∈ upperTable, p.2 ≠ q.1 := by
  decide

theorem plain_lowerChar {c : Char} (h : plainChar c = true) :
    plainChar (lowerChar c) = true := by
  rcases hl : lookupCase lowerTable c with _ | v
  · simpa [lowerChar, hl] using h
  · have hm := lookupCase_eq_some hl
    simpa [lowerChar, hl] using lowerTable_plain (c, v) hm h

theorem plain_upperChar {c : Char} (h : plainChar c = true) :
    plainChar (upperChar c) = true := by
  rcases hl : lookupCase upperTable c with _ | v
  · simpa [upperChar, hl] using h
  · have hm := lookupCase_eq_some hl
    simpa [upperChar, hl] using upperTable_plain (c, v) hm h

theorem lowerChar_idem (c : Char) : lowerChar (lowerChar c) = lowerChar c := by
  rcases hl : lookupCase lowerTable c with _ | v
  · simp [lowerChar, hl]
  · have hm := lookupCase_eq_some hl
    have hnone : lookupCase lowerTable v = none :=
      lookupCase_eq_none fun q hq => lowerTable_values_not_keys (c, v) hm q hq
    simp [lowerChar, hl, hnone]

theorem upperChar_idem (c : Char) : upperChar (upperChar c) = upperChar c := by
  rcases hl : lookupCase upperTable c with _ | v
  · simp [upperChar, hl]
  · have hm := lookupCase_eq_some hl
    have hnone : lookupCase upperTable v = none :=
      lookupCase_eq_none fun q hq => upperTable_values_not_keys (c, v) hm q hq
    simp [upperChar, hl, hnone]

theorem lowerL_idem (l : List Char) : lowerL (lowerL l) = lowerL l := by
  induction l with
  | nil => rfl
  | cons c cs ih =>
      simp only [lowerL, List.map_cons] at ih ⊢
      rw [lowerChar_idem, ih]

theorem upperL_idem (l : List Char) : upperL (upperL l) = upperL l := by
  induction l with
  | nil => rfl
  | cons c cs ih =>
      simp only [upperL, List.map_cons] at ih ⊢
      rw [upperChar_idem, ih]

/-- The output of `remove_accents` stays accent-free after lowercasing. -/
theorem removeAccentsL_lowerL (x : List Char) :
    removeAccentsL (lowerL (removeAccentsL x)) = lowerL (removeAccentsL x) := by
  refine removeAccentsL_of_plain fun d hd => ?_
  simp only [lowerL, List.mem_map] at hd
  obtain ⟨e, he, rfl⟩ := hd
  exact plain_lowerChar (plain_of_mem_removeAccentsL he)

/-- The output of `remove_accents` stays accent-free after uppercasing. -/
theorem removeAccentsL_upperL (x : List Char) :
    removeAccentsL (upperL (removeAccentsL x)) = upperL (removeAccentsL x) := by
  refine removeAccentsL_of_plain fun d hd => ?_
  simp only [upperL, List.mem_map] at hd
  obtain ⟨e, he, rfl⟩ := hd
  exact plain_upperChar (plain_of_mem_removeAccentsL he)

/-- The dictionary-entry normalization of `is_first_name` is idempotent. -/
theorem normEntryL_idem (x : List Char) :
    normEntryL (normEntryL x) = normEntryL x := by
  unfold normEntryL
  rw [removeAccentsL_lowerL, lowerL_idem]

/-! ## Claim theorems -/

/-- C9: the accent normalizer is idempotent — for every string `s`,
`remove_accents(remove_accents(s)) == remove_accents(s)`. -/
theorem c9_remove_accents_idempotent (s : String) :
    remove_accents (remove_accents s) = remove_accents s := by
  unfold remove_accents
  exact congrArg String.mk (removeAccentsL_idem s.data)

/-- C10: `is_first_name` — which normalizes the stored names at query time —
returns, for every probe and dictionary, the same result as it would over a
dictionary whose every entry was accent-stripped and lowercased at load time. -/
theorem c10_query_time_eq_load_time (name : String) (db : List String) :
    is_first_name name db =
      is_first_name name (db.map fun n => String.mk (normEntryL n.data)) := by
  unfold is_first_name isFirstNameL
  have hmap :
      ((db.map fun n => String.mk (normEntryL n.data)).map String.data).map
          normEntryL =
        (db.map String.data).map normEntryL := by
    simp only [List.map_map]
    exact List.map_congr_left fun a _ => normEntryL_idem a.data
  rw [hmap]

/-- C8 counterexample: on the input `"X  Y"` (no reorder applies) `parse_name`
returns the original spacing, so its tokens are not joined by single spaces —
rejoining its own tokens with one space gives a different string. -/
theorem c8_counterexample :
    parse_name "X  Y" [] = "X  Y" ∧
      String.mk (joinSpace (pySplitL (parse_name "X  Y" []).data)) ≠
        parse_name "X  Y" [] := by
  decide

/-- C8 amended: for every input string and dictionary, the output of
`parse_name` is uppercase (uppercasing it changes nothing) and contains no
diacritics (accent-stripping it changes nothing).  The single-space join of
the original claim only happens on the reorder path; otherwise the input
spacing is preserved, as the counterexample shows. -/
theorem c8_parse_name_uppercase_accent_free (raw : String) (db : List String) :
    remove_accents (parse_name raw db) = parse_name raw db ∧
      upperStr (parse_name raw db) = parse_name raw db := by
  have hshape : ∃ z, parseNameL raw.data (db.map String.data) = canonL z := by
    unfold parseNameL
    rcases h : pySplitL (truncCompanyL (pyStripL raw.data)) with _ | ⟨p0, _ | ⟨p1, rest⟩⟩
    · exact ⟨truncCompanyL (pyStripL raw.data), by simp [h]⟩
    · exact ⟨truncCompanyL (pyStripL raw.data), by simp [h]⟩
    · by_cases hf : isFirstNameL p0 (db.map String.data) = true
      · exact ⟨joinSpace (p1 :: p0 :: rest), by simp [h, hf]⟩
      · exact ⟨truncCompanyL (pyStripL raw.data), by simp [h, hf]⟩
  obtain ⟨z, hz⟩ := hshape
  unfold parse_name remove_accents upperStr
  rw [hz]
  constructor
  · exact congrArg String.mk (removeAccentsL_upperL z)
  · exact congrArg String.mk (upperL_idem (removeAccentsL z))

/-- C1 counterexample: `parse_name("Kovács János", {"János"})` returns
`"KOVACS JANOS"`, not the claimed `"JANOS KOVACS"` — the dictionary test is
applied to the first token `"Kovács"`, which is not in the dictionary, so no
reorder happens. -/
theorem c1_counterexample :
    parse_name "Kovács János" ["János"] = "KOVACS JANOS" ∧
      parse_name "Kovács János" ["János"] ≠ "JANOS KOVACS" := by
  decide

/-- C1 amended: `parse_name("Kovács János", {"János"})` returns
`"KOVACS JANOS"` (accent-stripped and uppercased, original token order kept,
because the first token is not a known first name). -/
theorem c1_amended :
    parse_name "Kovács János" ["János"] = "KOVACS JANOS" := by
  decide

/-- C2 counterexample: `compose("JANOS KOVACS", [2024-03-05, 2024-03-10])`
returns the filename with short code `JANO` — `get_short_name_code` abbreviates
the FIRST token `"JANOS"` of the name it is given — not the claimed `KOVA`. -/
theorem c2_counterexample :
    compose "JANOS KOVACS" [⟨2024, 3, 5⟩, ⟨2024, 3, 10⟩] ≠
        some "JANOS KOVACS EKHO - KOVA_0305-0310 - WE250309.pdf" ∧
      compose "JANOS KOVACS" [⟨2024, 3, 5⟩, ⟨2024, 3, 10⟩] =
        some "JANOS KOVACS EKHO - JANO_0305-0310 - WE250309.pdf" := by
  decide

/-- C2 amended: `compose("JANOS KOVACS", [2024-03-05, 2024-03-10])` returns
exactly `"JANOS KOVACS EKHO - JANO_0305-0310 - WE250309.pdf"` (the code is
built from the first token of the canonical name passed in). -/
theorem c2_amended :
    compose "JANOS KOVACS" [⟨2024, 3, 5⟩, ⟨2024, 3, 10⟩] =
      some "JANOS KOVACS EKHO - JANO_0305-0310 - WE250309.pdf" := by
  decide

/-- C3 counterexample: `parse_dates("date: 05.03.24 to 10.03.24")` returns
`[2024-05-03, 2024-10-03]`: Pattern B first tries field1 as the month, and
months 5 and 10 are valid, so the claimed swap to `[2024-03-05, 2024-03-10]`
never happens. -/
theorem c3_counterexample :
    parse_dates "date: 05.03.24 to 10.03.24" =
        [⟨2024, 5, 3⟩, ⟨2024, 10, 3⟩] ∧
      parse_dates "date: 05.03.24 to 10.03.24" ≠
        [⟨2024, 3, 5⟩, ⟨2024, 3, 10⟩] := by
  decide

/-- C3 amended: `parse_dates("date: 05.03.24 to 10.03.24")` returns
`[2024-05-03, 2024-10-03]` in that order — for each match the first
construction (year, field1-as-month, field2-as-day) already succeeds. -/
theorem c3_amended :
    parse_dates "date: 05.03.24 to 10.03.24" =
      [⟨2024, 5, 3⟩, ⟨2024, 10, 3⟩] := by
  decide

/-- C5: for every raw name, with `parts` the whitespace tokens of the
stripped input truncated at the literal `"Company"`: when there are at least
two tokens and the FIRST token is in the dictionary, `parse_name`
canonicalizes the reordered list `[parts[1], parts[0], parts[2:]...]` joined
by single spaces; in every other case — including when only a later token is
in the dictionary, and for single-token names — the truncated input is
canonicalized as it stands, keeping the original token order. -/
theorem c5_first_token_positional_rule (raw : String) (db : List String) :
    parse_name raw db =
      String.mk (canonL
        (if 2 ≤ (pySplitL (truncCompanyL (pyStripL raw.data))).length ∧
            isFirstNameL ((pySplitL (truncCompanyL (pyStripL raw.data))).getD 0 [])
              (db.map String.data) = true
         then
           joinSpace
             ((pySplitL (truncCompanyL (pyStripL raw.data))).getD 1 [] ::
               (pySplitL (truncCompanyL (pyStripL raw.data))).getD 0 [] ::
                 (pySplitL (truncCompanyL (pyStripL raw.data))).drop 2)
         else truncCompanyL (pyStripL raw.data))) := by
  unfold parse_name parseNameL
  rcases h : pySplitL (truncCompanyL (pyStripL raw.data)) with _ | ⟨p0, _ | ⟨p1, rest⟩⟩
  · simp [h]
  · simp [h]
  · by_cases hf : isFirstNameL p0 (db.map String.data) = true
    · have hc : 2 ≤ (p0 :: p1 :: rest).length ∧ isFirstNameL p0 (db.map String.data) = true := by
        refine ⟨?_, hf⟩
        simp [List.length_cons]
      simp [h, hf, hc]
    · simp [h, hf]

/-- Shifting the accumulator of the decimal fold. -/
theorem toNatD_foldl_shift (y : List Char) (a : Nat) :
    y.foldl (fun a c => 10 * a + (c.toNat - 48)) a =
      a * 10 ^ y.length + y.foldl (fun a c => 10 * a + (c.toNat - 48)) 0 := by
  induction y generalizing a with
  | nil => simp
  | cons c t ih =>
      simp only [List.foldl_cons, List.length_cons]
      rw [ih (10 * a + (c.toNat - 48)), ih (10 * 0 + (c.toNat - 48))]
      ring

/-- `int('20' + y)` equals `2000 + int(y)` for a two-character capture. -/
theorem toNatD_prepend20 (y : List Char) (h : y.length = 2) :
    toNatD ('2' :: '0' :: y) = 2000 + toNatD y := by
  unfold toNatD
  simp only [List.foldl_cons]
  have h2 : (10 * 0 + ('2'.toNat - 48)) = 2 := by decide
  have h0 : (10 * 2 + ('0'.toNat - 48)) = 20 := by decide
  rw [h2, h0, toNatD_foldl_shift y 20, h]
  norm_num

/-- C4: for every Pattern B capture (field1, field2, year-text) found by the
date scanner, the per-match handling of `parse_dates` is exactly the rule the
specification states: a 2-digit year-text means year `2000 + YY`; the date is
first constructed as (year, field1-as-month, field2-as-day), retried on
failure as (year, field2-as-month, field1-as-day), and dropped when both
constructions fail — and `parse_dates` is the sorted collection of the
per-match results. -/
theorem c4_patternB_rule (text : String) (d1 d2 y : List Char)
    (_hmem : DateMatch.B d1 d2 y ∈ findallDates text.data) :
    processMatch (DateMatch.B d1 d2 y) = specHandleB d1 d2 y ∧
      parse_dates text =
        sortDates ((findallDates text.data).filterMap processMatch) := by
  refine ⟨?_, rfl⟩
  unfold processMatch specHandleB
  by_cases hy : y.length = 2
  · simp [hy, toNatD_prepend20 y hy]
  · simp [hy]

/-- C4 witness: the capture `("05", "03", "24")` is found in `"05.03.24"` and
satisfies the rule. -/
theorem c4_patternB_rule_witness :
    DateMatch.B ['0', '5'] ['0', '3'] ['2', '4'] ∈
        findallDates ("05.03.24".data) ∧
      (processMatch (DateMatch.B ['0', '5'] ['0', '3'] ['2', '4']) =
          specHandleB ['0', '5'] ['0', '3'] ['2', '4'] ∧
        parse_dates "05.03.24" =
          sortDates ((findallDates ("05.03.24".data)).filterMap processMatch)) :=
  ⟨by decide, c4_patternB_rule "05.03.24" _ _ _ (by decide)⟩

/-- Zero-padded decimal rendering agrees with digit extraction below 100. -/
theorem pad2L_eq_digits : ∀ n < 100,
    pad2L n = [Nat.digitChar (n / 10), Nat.digitChar (n % 10)] := by
  decide

theorem daysInMonth_le_31 (y m : Nat) : daysInMonth y m ≤ 31 := by
  unfold daysInMonth
  split
  · split <;> omega
  · split <;> omega

/-- `strftime('%m%d')` agrees with the spec-side 2-digit fragment as long as
month and day fit in two digits. -/
theorem fmtMMDD_eq_specFmt {d : Date} (hm : d.month < 100) (hd : d.day < 100) :
    fmtMMDD d = specFmt d := by
  unfold fmtMMDD specFmt
  rw [pad2L_eq_digits d.month hm, pad2L_eq_digits d.day hd]
  rfl

theorem month_day_small_of_valid {d : Date} (h : validDate d) :
    d.month < 100 ∧ d.day < 100 := by
  obtain ⟨-, -, -, h4, -, h6⟩ := h
  have := daysInMonth_le_31 d.year d.month
  omega

theorem predDate_small_of_valid {d pd : Date} (h : validDate d)
    (hp : predDate d = some pd) : pd.month < 100 ∧ pd.day < 100 := by
  obtain ⟨-, -, -, h4, -, h6⟩ := h
  have h31 := daysInMonth_le_31 d.year d.month
  have h31p := daysInMonth_le_31 d.year (d.month - 1)
  unfold predDate at hp
  split at hp
  · simp only [Option.some.injEq] at hp
    subst hp
    simp only
    omega
  · split at hp
    · simp only [Option.some.injEq] at hp
      subst hp
      simp only
      omega
    · split at hp
      · simp only [Option.some.injEq] at hp
        subst hp
        simp only
        omega
      · simp at hp

/-- The day-before subtraction succeeds on every valid date other than
`datetime.min` = 0001-01-01. -/
theorem predDate_isSome_of_ne_min {d : Date} (h : validDate d)
    (hne : d ≠ ⟨1, 1, 1⟩) : ∃ pd, predDate d = some pd := by
  obtain ⟨h1, -, h3, -, h5, -⟩ := h
  unfold predDate
  by_cases hd : 1 < d.day
  · exact ⟨_, by rw [if_pos hd]⟩
  · by_cases hm : 1 < d.month
    · exact ⟨_, by rw [if_neg hd, if_pos hm]⟩
    · by_cases hy : 1 < d.year
      · exact ⟨_, by rw [if_neg hd, if_neg hm, if_pos hy]⟩
      · exfalso
        apply hne
        have hy1 : d.year = 1 := by omega
        have hm1 : d.month = 1 := by omega
        have hd1 : d.day = 1 := by omega
        cases d
        simp_all

theorem getLastD_mem (d : Date) (ds : List Date) : ds.getLastD d ∈ d :: ds := by
  induction ds generalizing d with
  | nil => simp
  | cons e es ih =>
      rw [List.getLastD_cons]
      rcases List.mem_cons.mp (ih e) with h | h
      · rw [h]
        exact List.mem_cons_of_mem _ (List.mem_cons_self _ _)
      · exact List.mem_cons_of_mem _ (List.mem_cons_of_mem _ h)

theorem getShortNameCodeL_isSome {l : List Char} (h : pySplitL l ≠ []) :
    ∃ code, getShortNameCodeL l = some code := by
  obtain ⟨t, ts, hs⟩ : ∃ t ts, pySplitL l = t :: ts := by
    rcases hq : pySplitL l with _ | ⟨t, ts⟩
    · exact absurd hq h
    · exact ⟨t, ts, rfl⟩
  unfold getShortNameCodeL
  rw [hs]
  by_cases h4 : 4 ≤ t.length
  · exact ⟨upperL (t.take 4), by simp [h4]⟩
  · by_cases h3 : t.length = 3
    · exact ⟨upperL (t.take 3), by simp [h4, h3]⟩
    · exact ⟨upperL t, by simp [h4, h3]⟩

/-- C6 counterexample: the date list `[0001-01-01]` is non-empty, ascending
and valid, yet `compose` produces no filename at all — the day-before
computation `dates[-1] - timedelta(days=1)` (source line 118) overflows below
`datetime.min` and the program raises instead of returning the template
string. -/
theorem c6_counterexample :
    validDate ⟨1, 1, 1⟩ ∧ ascDates [⟨1, 1, 1⟩] = true ∧
      compose "KOVACS JANOS" [⟨1, 1, 1⟩] = none := by
  decide

/-- C6 amended: for every canonical name with at least one token and every
non-empty ascending list of valid dates whose last date is not
`datetime.min` = 0001-01-01 (so the day-before subtraction does not
overflow), `compose` instantiates exactly the template
`<canonicalName> EKHO - <code>_<firstDate>-<lastDate> - WE25<dayBeforeLast>.pdf`
with the first and last dates rendered as 2-digit month followed by 2-digit
day, the day before the last date in the same format, and the short code of
the canonical name. -/
theorem c6_compose_template (name : String) (dates : List Date)
    (hne : dates ≠ []) (htok : pySplitL name.data ≠ [])
    (hval : ∀ d ∈ dates, validDate d)
    (hasc : ascDates dates = true)
    (hmin : dates.getLastD ⟨0, 0, 0⟩ ≠ ⟨1, 1, 1⟩) :
    ∃ code pd, getShortNameCodeL name.data = some code ∧
      predDate (dates.getLastD ⟨0, 0, 0⟩) = some pd ∧
      compose name dates =
        some (String.mk (name.data ++ " EKHO - ".data ++ code ++ ['_']
          ++ specFmt (dates.headD ⟨0, 0, 0⟩) ++ ['-']
          ++ specFmt (dates.getLastD ⟨0, 0, 0⟩) ++ " - WE25".data
          ++ specFmt pd ++ ".pdf".data)) := by
  obtain ⟨code, hcode⟩ := getShortNameCodeL_isSome htok
  rcases dates with _ | ⟨d, ds⟩
  · exact absurd rfl hne
  · have hd : validDate d := hval d (List.mem_cons_self _ _)
    have hlast : validDate (ds.getLastD d) := hval _ (getLastD_mem d ds)
    rw [List.getLastD_cons] at hmin
    obtain ⟨pd, hpd⟩ := predDate_isSome_of_ne_min hlast hmin
    have h1 := month_day_small_of_valid hd
    have h2 := month_day_small_of_valid hlast
    have h3 := predDate_small_of_valid hlast hpd
    refine ⟨code, pd, hcode, ?_, ?_⟩
    · rw [List.getLastD_cons]
      exact hpd
    · unfold compose composeFL
      simp only [hpd, hcode, Option.map_some', List.headD_cons,
        List.getLastD_cons]
      rw [fmtMMDD_eq_specFmt h1.1 h1.2, fmtMMDD_eq_specFmt h2.1 h2.2,
        fmtMMDD_eq_specFmt h3.1 h3.2]

/-- C6 witness: the amended template theorem applied to `"KOVACS JANOS"` and
the dates 2024-03-05, 2024-03-10. -/
theorem c6_compose_template_witness :
    ((([⟨2024, 3, 5⟩, ⟨2024, 3, 10⟩] : List Date) ≠ []) ∧
        pySplitL ("KOVACS JANOS".data) ≠ [] ∧
        (∀ d ∈ ([⟨2024, 3, 5⟩, ⟨2024, 3, 10⟩] : List Date), validDate d) ∧
        ascDates [⟨2024, 3, 5⟩, ⟨2024, 3, 10⟩] = true ∧
        ([⟨2024, 3, 5⟩, ⟨2024, 3, 10⟩] : List Date).getLastD ⟨0, 0, 0⟩ ≠
          ⟨1, 1, 1⟩) ∧
      (∃ code pd, getShortNameCodeL ("KOVACS JANOS".data) = some code ∧
        predDate (([⟨2024, 3, 5⟩, ⟨2024, 3, 10⟩] : List Date).getLastD
          ⟨0, 0, 0⟩) = some pd ∧
        compose "KOVACS JANOS" [⟨2024, 3, 5⟩, ⟨2024, 3, 10⟩] =
          some (String.mk ("KOVACS JANOS".data ++ " EKHO - ".data ++ code
            ++ ['_']
            ++ specFmt (([⟨2024, 3, 5⟩, ⟨2024, 3, 10⟩] : List Date).headD ⟨0, 0, 0⟩)
            ++ ['-']
            ++ specFmt (([⟨2024, 3, 5⟩, ⟨2024, 3, 10⟩] : List Date).getLastD ⟨0, 0, 0⟩)
            ++ " - WE25".data
            ++ specFmt pd ++ ".pdf".data))) :=
  ⟨⟨by decide, by decide, by decide, by decide, by decide⟩,
    c6_compose_template "KOVACS JANOS" [⟨2024, 3, 5⟩, ⟨2024, 3, 10⟩]
      (by decide) (by decide) (by decide) (by decide) (by decide)⟩

/-! ## Lemmas about the preamble-stripping `re.sub` -/

theorem dropWhile_append_of_all {p : Char → Bool} (a b : List Char)
    (h : ∀ x ∈ a, p x = true) :
    (a ++ b).dropWhile p = b.dropWhile p := by
  induction a with
  | nil => rfl
  | cons c t ih =>
      rw [List.cons_append, List.dropWhile_cons]
      simp only [h c (List.mem_cons_self _ _), if_pos rfl]
      exact ih fun x hx => h x (List.mem_cons_of_mem _ hx)

theorem isPySpace_eq_false_of_isDigit {c : Char} (h : c.isDigit = true) :
    isPySpace c = false := by
  cases hb : isPySpace c with
  | false => rfl
  | true =>
      exfalso
      unfold isPySpace at hb
      simp only [Bool.or_eq_true, beq_iff_eq] at hb
      rcases hb with ((((rfl | rfl) | rfl) | rfl) | rfl) | rfl <;>
        exact absurd h (by decide)

theorem stripCi_length {p l r : List Char} (h : stripCi p l = some r) :
    r.length + p.length = l.length := by
  induction p generalizing l with
  | nil =>
      simp only [stripCi, Option.some.injEq] at h
      subst h
      simp
  | cons a ps ih =>
      cases l with
      | nil => simp [stripCi] at h
      | cons c cs =>
          by_cases hc : lowerChar c = a
          · simp only [stripCi, if_pos hc] at h
            have := ih h
            simp only [List.length_cons]
            omega
          · simp [stripCi, hc] at h

theorem wsPlus_length {l r : List Char} (h : wsPlus l = some r) :
    r.length < l.length := by
  cases l with
  | nil => simp [wsPlus] at h
  | cons c cs =>
      by_cases hc : isPySpace c
      · simp only [wsPlus, if_pos hc, Option.some.injEq] at h
        subst h
        have := (List.dropWhile_sublist isPySpace (l := cs)).length_le
        simp only [List.length_cons]
        omega
      · simp [wsPlus, hc] at h

theorem digitsPlus_length {l r : List Char} (h : digitsPlus l = some r) :
    r.length < l.length := by
  cases l with
  | nil => simp [digitsPlus] at h
  | cons c cs =>
      by_cases hc : c.isDigit
      · simp only [digitsPlus, if_pos hc, Option.some.injEq] at h
        subst h
        have := (List.dropWhile_sublist Char.isDigit (l := cs)).length_le
        simp only [List.length_cons]
        omega
      · simp [digitsPlus, hc] at h

theorem matchPeriod_length {l r : List Char} (h : matchPeriod l = some r) :
    r.length < l.length := by
  unfold matchPeriod at h
  split at h
  · exact absurd h (by simp)
  next l0 h0 =>
    split at h
    · exact absurd h (by simp)
    next l1 h1 =>
      split at h
      · exact absurd h (by simp)
      next l2 h2 =>
        split at h
        · exact absurd h (by simp)
        next l3 h3 =>
          split at h
          · exact absurd h (by simp)
          next l4 h4 =>
            simp only [Option.some.injEq] at h
            subst h
            have e0 := stripCi_length h0
            have e1 := wsPlus_length h1
            have e2 := digitsPlus_length h2
            have e3 := wsPlus_length h3
            have e4 := stripCi_length h4
            have e5 :=
              (List.dropWhile_sublist (fun c => decide (c ≠ '\n'))
                (l := l4)).length_le
            have hp : ("period".data).length = 6 := rfl
            have hs : ("starts".data).length = 6 := rfl
            omega

/-- The fuel of the `re.sub` scan does not matter once it covers the input. -/
theorem stripAux_congr : ∀ (f g : Nat) (b : Bool) (l : List Char),
    l.length ≤ f → l.length ≤ g → stripAux f b l = stripAux g b l := by
  intro f
  induction f with
  | zero =>
      intro g b l hf hg
      have : l = [] := List.length_eq_zero.mp (Nat.le_zero.mp hf)
      subst this
      cases g <;> rfl
  | succ f ih =>
      intro g b l hf hg
      cases l with
      | nil => cases g <;> rfl
      | cons c cs =>
          cases g with
          | zero => simp at hg
          | succ g =>
              simp only [List.length_cons] at hf hg
              cases b with
              | false =>
                  simp only [stripAux, Bool.false_eq_true, if_false]
                  exact congrArg (c :: ·)
                    (ih g (c == '\n') cs (by omega) (by omega))
              | true =>
                  simp only [stripAux, if_pos rfl]
                  rcases hm : matchPeriod (c :: cs) with _ | r
                  · exact congrArg (c :: ·)
                      (ih g (c == '\n') cs (by omega) (by omega))
                  · have hr := matchPeriod_length hm
                    simp only [List.length_cons] at hr
                    exact ih g false r (by omega) (by omega)

/-- A line `Period <digits> Starts<tail>` matches the preamble pattern and
the match ends exactly at the newline that terminates the line. -/
theorem matchPeriod_line (d0 : Char) (ds' rest T : List Char)
    (hdig : ∀ c ∈ d0 :: ds', c.isDigit = true) (hrest : ∀ c ∈ rest, c ≠ '\n') :
    matchPeriod ('P' :: 'e' :: 'r' :: 'i' :: 'o' :: 'd' :: ' ' ::
        ((d0 :: ds') ++ ' ' :: 'S' :: 't' :: 'a' :: 'r' :: 't' :: 's' ::
          (rest ++ '\n' :: T))) = some ('\n' :: T) := by
  have hd0 : d0.isDigit = true := hdig d0 (List.mem_cons_self _ _)
  have hsp0 : isPySpace d0 = false := isPySpace_eq_false_of_isDigit hd0
  have s0 : ∀ Y : List Char,
      stripCi ("period".data) ('P' :: 'e' :: 'r' :: 'i' :: 'o' :: 'd' :: Y) =
        some Y := fun _ => rfl
  have s1 : ∀ Y : List Char, wsPlus (' ' :: Y) = some (Y.dropWhile isPySpace) :=
    fun _ => rfl
  have s3 : ∀ Y : List Char,
      digitsPlus (d0 :: Y) = some (Y.dropWhile Char.isDigit) := by
    intro Y
    simp [digitsPlus, hd0]
  have s4 : ∀ Y : List Char,
      (ds' ++ Y).dropWhile Char.isDigit = Y.dropWhile Char.isDigit :=
    fun Y =>
      dropWhile_append_of_all ds' Y fun x hx => hdig x (List.mem_cons_of_mem _ hx)
  have s7 : ∀ Y : List Char,
      stripCi ("starts".data) ('S' :: 't' :: 'a' :: 'r' :: 't' :: 's' :: Y) =
        some Y := fun _ => rfl
  have hSd : Char.isDigit ' ' = false := rfl
  have hSsp : isPySpace 'S' = false := rfl
  simp [matchPeriod, s0, s1, s3, s4, s7, List.dropWhile_cons, hsp0, hSd, hSsp]
  rw [dropWhile_append_of_all rest ('\n' :: T) fun x hx => by simpa using hrest x hx]
  rw [List.dropWhile_cons]
  simp

/-- C7 counterexample: the lazy tail of the pattern matches nothing, so on
`"Period 1 Starts\nName: X"` the `re.sub` removes only the `Period` line
itself — the following `Name:` line survives, while the claim would strip the
whole text. -/
theorem c7_counterexample :
    stripPeriod "Period 1 Starts\nName: X" = "\nName: X" ∧
      stripPeriod "Period 1 Starts\nName: X" ≠ "" := by
  decide

/-- C7 amended: before the `Name:` label is searched for, each line beginning
`Period <N> Starts` has only its own text removed, up to but not including the
terminating newline; the lines that follow it are preserved and scanned the
same way. -/
theorem c7_strip_only_matching_line (d0 : Char) (ds' rest T : List Char)
    (hdig : ∀ c ∈ d0 :: ds', c.isDigit = true) (hrest : ∀ c ∈ rest, c ≠ '\n') :
    stripPeriodL ("Period ".data ++ ((d0 :: ds') ++
        (" Starts".data ++ (rest ++ '\n' :: T)))) = '\n' :: stripPeriodL T := by
  have hL : "Period ".data ++ ((d0 :: ds') ++ (" Starts".data ++ (rest ++ '\n' :: T))) =
      'P' :: 'e' :: 'r' :: 'i' :: 'o' :: 'd' :: ' ' ::
        ((d0 :: ds') ++ ' ' :: 'S' :: 't' :: 'a' :: 'r' :: 't' :: 's' ::
          (rest ++ '\n' :: T)) := rfl
  rw [hL]
  unfold stripPeriodL
  rw [List.length_cons]
  simp only [stripAux, if_pos, matchPeriod_line d0 ds' rest T hdig hrest]
  rw [List.length_cons]
  simp only [stripAux, Bool.false_eq_true, if_false, beq_self_eq_true]
  congr 1
  exact stripAux_congr _ _ _ _
    (by simp only [List.length_cons, List.length_append]; omega) (Nat.le_refl _)

/-- C7 witness: the amended stripping theorem at the line `Period 1 Starts`
followed by `Name: X`. -/
theorem c7_strip_only_matching_line_witness :
    ((∀ c ∈ ['1'], c.isDigit = true) ∧ (∀ c ∈ ([] : List Char), c ≠ '\n')) ∧
      stripPeriodL ("Period ".data ++ (('1' :: []) ++
          (" Starts".data ++ (([] : List Char) ++ '\n' :: ("Name: X".data))))) =
        '\n' :: stripPeriodL ("Name: X".data) :=
  ⟨⟨by decide, by decide⟩,
    c7_strip_only_matching_line '1' [] [] ("Name: X".data) (by decide) (by decide)⟩

end EkhoNaming
